import Mathlib

/-!
Verification development for the `claude-project-indexer` repository.

The JavaScript sources (`indexer.js` with class `ProjectIndexer`, and the
watcher file with class `ProjectWatcher`) are embedded shallowly below:
pure functions become Lean functions, the mutable tree-building loop becomes
explicit state passing, fallible operations return `Except`, and filesystem
reads are an oracle parameter `fs : String → Except String String`.
-/

set_option maxRecDepth 10000

/-! ## Ignore matcher (`ProjectIndexer.shouldIgnoreFile`, indexer.js lines 52-61)

The source compiles a pattern containing `**` into a JavaScript regex by
`pattern.replace(/\*\*/g, '.*').replace(/\*/g, '[^/]*')` and calls
`regex.test(relativePath)` (an unanchored substring search).  Note the second
`replace` also rewrites the `*` introduced by the first, so `**` ends up as
`.[^/]*`.  A pattern without `**` is a plain substring test after stripping
all `*` characters.

We model the two string replacements character-exactly, then interpret the
resulting regex string over the token alphabet that such strings can contain
(literals, `.`, the class `[^/]` and the starred class `[^/]*`).  The
interpretation is faithful to JavaScript regex semantics for patterns whose
characters are alphanumeric or one of `_ - / . *` (predicate `regexSafeChar`);
other regex metacharacters are not modeled. -/

inductive RTok where
  | lit (c : Char)
  | anyChar
  | clsNonSep
  | starNonSep
deriving DecidableEq, Repr

/-- `pattern.replace(/\*\*/g, '.*')`: each non-overlapping `**` becomes `.*`. -/
def replaceDoubleStar : List Char → List Char
  | '*' :: '*' :: rest => '.' :: '*' :: replaceDoubleStar rest
  | c :: rest => c :: replaceDoubleStar rest
  | [] => []

/-- `.replace(/\*/g, '[^/]*')`: every remaining `*` becomes `[^/]*`. -/
def replaceStar : List Char → List Char
  | '*' :: rest => '[' :: '^' :: '/' :: ']' :: '*' :: replaceStar rest
  | c :: rest => c :: replaceStar rest
  | [] => []

/-- Reads the regex string produced by the two replacements back into tokens.
`[^/]*` is a starred non-separator class, `[^/]` a single non-separator
class, `.` matches any character, anything else is a literal. -/
def parseRegex : List Char → List RTok
  | '[' :: '^' :: '/' :: ']' :: '*' :: rest => .starNonSep :: parseRegex rest
  | '[' :: '^' :: '/' :: ']' :: rest => .clsNonSep :: parseRegex rest
  | '.' :: rest => .anyChar :: parseRegex rest
  | c :: rest => .lit c :: parseRegex rest
  | [] => []

/-- Direct compilation of an ignore pattern to tokens: `**` yields
any-character followed by a starred non-separator class (the net effect of
the two string replacements), a lone `*` yields the starred class, `.` is
any-character, everything else is literal. -/
def directCompile : List Char → List RTok
  | '*' :: '*' :: rest => .anyChar :: .starNonSep :: directCompile rest
  | '*' :: rest => .starNonSep :: directCompile rest
  | '.' :: rest => .anyChar :: directCompile rest
  | c :: rest => .lit c :: directCompile rest
  | [] => []

/-- Characters for which the regex interpretation above agrees with
JavaScript: alphanumerics and `_ - / . *`. -/
def regexSafeChar (c : Char) : Bool :=
  c.isAlphanum || c = '_' || c = '-' || c = '/' || c = '.' || c = '*'

/-- Anchored matching of a token list against a prefix of the input, with a
fuel parameter bounding the recursion depth (each step shortens the token
list or the input, so depth `ts.length + ds.length` always suffices; see
`reMatch`).  `starNonSep` matches any run of non-`/` characters (match
existence is unaffected by greediness, so the lazy order used here is
equivalent to the greedy JavaScript engine for a boolean test). -/
def reMatchF : Nat → List RTok → List Char → Bool
  | 0, _, _ => false
  | _ + 1, [], _ => true
  | f + 1, .lit c :: ts, d :: ds => c = d && reMatchF f ts ds
  | _ + 1, .lit _ :: _, [] => false
  | f + 1, .anyChar :: ts, _ :: ds => reMatchF f ts ds
  | _ + 1, .anyChar :: _, [] => false
  | f + 1, .clsNonSep :: ts, d :: ds => d ≠ '/' && reMatchF f ts ds
  | _ + 1, .clsNonSep :: _, [] => false
  | f + 1, .starNonSep :: ts, ds =>
    reMatchF f ts ds ||
      (match ds with
       | [] => false
       | d :: ds' => d ≠ '/' && reMatchF f (.starNonSep :: ts) ds')

/-- Anchored token-regex matching with sufficient fuel. -/
def reMatch (ts : List RTok) (ds : List Char) : Bool :=
  reMatchF (ts.length + ds.length + 1) ts ds

/-- `regex.test(s)`: unanchored search, trying every start position. -/
def reTest (ts : List RTok) : List Char → Bool
  | [] => reMatch ts []
  | c :: s' => reMatch ts (c :: s') || reTest ts s'

/-- `needle` occurs as a contiguous substring of `hay`
(JavaScript `hay.includes(needle)`). -/
def isSubstringList (needle : List Char) : List Char → Bool
  | [] => needle.isPrefixOf []
  | c :: hay' => needle.isPrefixOf (c :: hay') || isSubstringList needle hay'

/-- `pattern.includes('**')`. -/
def containsDoubleStar (p : List Char) : Bool :=
  isSubstringList ['*', '*'] p

/-- One pattern of `shouldIgnoreFile` (indexer.js lines 54-60) applied to a
relative path: the `**` branch runs the compiled regex unanchored, the other
branch is substring containment after `pattern.replace(/\*/g, '')`. -/
def shouldIgnoreSingle (p rel : List Char) : Bool :=
  if containsDoubleStar p then
    reTest (parseRegex (replaceStar (replaceDoubleStar p))) rel
  else
    isSubstringList (p.filter (fun c => c ≠ '*')) rel

/-- `shouldIgnoreFile` (indexer.js lines 52-61): `relativePath` is the path
relative to the project root; the method returns whether some ignore pattern
accepts it. -/
def shouldIgnoreFile (patterns : List String) (relativePath : String) : Bool :=
  patterns.any (fun p => shouldIgnoreSingle p.data relativePath.data)

/-- Modelled from the spec: glob semantics in which `**` as a whole path
segment matches any number of path segments and `*` matches any characters
except the separator, anchored over the whole relative path.  This is the
comparison semantics named by the claim, not code of the repository. -/
def segMatchF : Nat → List Char → List Char → Bool
  | 0, _, _ => false
  | f + 1, '*' :: ps, s =>
    segMatchF f ps s ||
      (match s with
       | [] => false
       | _ :: s' => segMatchF f ('*' :: ps) s')
  | _ + 1, [], [] => true
  | _ + 1, [], _ :: _ => false
  | f + 1, p :: ps, c :: s => p = c && segMatchF f ps s
  | _ + 1, _ :: _, [] => false

/-- Modelled from the spec: one glob segment, `*` matching any characters
except the separator. -/
def segMatch (ps s : List Char) : Bool :=
  segMatchF (ps.length + s.length + 1) ps s

/-- Modelled from the spec: segment-list glob matching, `['*','*']` segments
match any number of path segments (fueled; depth is bounded by
`ps.length + segs.length`). -/
def globMatchSegsF : Nat → List (List Char) → List (List Char) → Bool
  | 0, _, _ => false
  | _ + 1, [], [] => true
  | _ + 1, [], _ :: _ => false
  | f + 1, p :: ps, segs =>
    if p = ['*', '*'] then
      globMatchSegsF f ps segs ||
        (match segs with
         | [] => false
         | _ :: ss => globMatchSegsF f (p :: ps) ss)
    else
      match segs with
      | [] => false
      | s :: ss => segMatch p s && globMatchSegsF f ps ss

def globMatchSegs (ps segs : List (List Char)) : Bool :=
  globMatchSegsF (ps.length + segs.length + 1) ps segs

/-- Splits a character list on a separator character
(JavaScript `String.prototype.split` with a one-character separator). -/
def splitOnCharAux (sep : Char) (cur : List Char) : List Char → List String
  | [] => [String.mk cur.reverse]
  | c :: cs =>
    if c = sep then String.mk cur.reverse :: splitOnCharAux sep [] cs
    else splitOnCharAux sep (c :: cur) cs

def splitOnChar (sep : Char) (s : List Char) : List String :=
  splitOnCharAux sep [] s

/-- Modelled from the spec: the claim's glob semantics applied to a whole
pattern and relative path, split into `/`-separated segments. -/
def specGlobMatch (pattern relativePath : String) : Bool :=
  globMatchSegs ((splitOnChar '/' pattern.data).map String.data)
    ((splitOnChar '/' relativePath.data).map String.data)

example : shouldIgnoreFile ["a/**/b"] "a/x/y/b" = false := by decide
example : specGlobMatch "a/**/b" "a/x/y/b" = true := by decide
example : shouldIgnoreFile ["a/**/b"] "a/x/b" = true := by decide
example : shouldIgnoreFile ["build/**"] "mybuild/x.js" = true := by decide
example : shouldIgnoreFile ["node_modules/**"] "node_modules/a/b.js" = true := by decide
example : shouldIgnoreFile ["*.min.js"] "x/app.min.js" = true := by decide

/-! ## Tree builder (`ProjectIndexer.buildFileTree`, indexer.js lines 459-483)

The JavaScript value stored for a path segment is either a nested plain
object (a directory) or the string `'file'`.  JavaScript objects keep
insertion order, so a level of the tree is an association list.

The building loop mutates `current[part]`; the embedding threads the tree
functionally.  One genuine JavaScript subtlety is preserved: when a segment
already holds the string `'file'` and more segments follow, the loop does
`current = current[part]`, making `current` the *string* `'file'`.  In sloppy
mode, property writes on a string primitive are silent no-ops and property
reads on it yield `undefined` (segment names that collide with built-in
string properties such as `length` are not modeled), while any property
access on `undefined` throws a `TypeError`.  `insertOnFileString` captures
exactly what the remaining loop iterations do in that situation, and a thrown
`TypeError` is an `Except.error`. -/

inductive Node where
  | file
  | dir (entries : List (String × Node))
deriving Repr

abbrev Entries := List (String × Node)

/-- Property lookup in an insertion-ordered object. -/
def lookupKV {α : Type} : List (String × α) → String → Option α
  | [], _ => none
  | (k', v) :: rest, k => if k' = k then some v else lookupKV rest k

/-- Property assignment in an insertion-ordered object: replaces in place if
the key exists, otherwise appends. -/
def setKV {α : Type} : List (String × α) → String → α → List (String × α)
  | [], k, v => [(k, v)]
  | (k', v') :: rest, k, v =>
    if k' = k then (k, v) :: rest else (k', v') :: setKV rest k v

/-- Remaining loop iterations after `current` became the string `'file'`:
with a single remaining segment the final `current[part] = 'file'` is a
silent no-op; with two or more, the next iteration reaches a property access
on `undefined` and throws. -/
def insertOnFileString : List String → Except Unit Unit
  | [] => .ok ()
  | [_] => .ok ()
  | _ :: _ :: _ => .error ()

/-- The loop body of `buildFileTree` for one relative path, split into
segments.  `current[part] = 'file'` for the last segment overwrites whatever
was there; an intermediate segment descends, creating `{}` when the slot is
empty, and falls into `insertOnFileString` when the slot holds `'file'`. -/
def insertParts : Entries → List String → Except Unit Entries
  | es, [] => .ok es
  | es, [last] => .ok (setKV es last .file)
  | es, part :: rest => do
    match lookupKV es part with
    | some (.dir sub) =>
      let sub' ← insertParts sub rest
      .ok (setKV es part (.dir sub'))
    | some .file => do
      let _ ← insertOnFileString rest
      .ok es
    | none =>
      let sub' ← insertParts ([] : Entries) rest
      .ok (setKV es part (.dir sub'))

/-- `relativePath.split(path.sep)`. -/
def splitPath (s : String) : List String :=
  splitOnChar '/' s.data

/-- `buildFileTree` (indexer.js lines 459-483) over the relative paths of the
discovered files.  A `TypeError` thrown during an insertion propagates out of
the loop. -/
def buildFileTree (files : List String) : Except Unit Entries :=
  files.foldlM (fun es f => insertParts es (splitPath f)) ([] : Entries)

mutual
/-- Number of file-marker leaves of a node. -/
def nodeLeaves : Node → Nat
  | .file => 1
  | .dir es => entriesLeaves es
/-- Number of file-marker leaves of one object level. -/
def entriesLeaves : Entries → Nat
  | [] => 0
  | (_, n) :: rest => nodeLeaves n + entriesLeaves rest
end

mutual
/-- Segment paths of the file-marker leaves below a node, in tree order. -/
def nodePaths : Node → List (List String)
  | .file => [[]]
  | .dir es => entriesPaths es
/-- Segment paths of the file-marker leaves of one object level. -/
def entriesPaths : Entries → List (List String)
  | [] => []
  | (k, n) :: rest => (nodePaths n).map (k :: ·) ++ entriesPaths rest
end

mutual
/-- Well-formedness of trees produced by `buildFileTree`: keys are unique at
every level and directory objects are never empty. -/
inductive NodeWF : Node → Prop where
  | file : NodeWF .file
  | dir : ∀ es, EntriesWF es → es ≠ [] → NodeWF (.dir es)
/-- Well-formedness of one object level. -/
inductive EntriesWF : Entries → Prop where
  | nil : EntriesWF []
  | cons : ∀ k n rest, NodeWF n → EntriesWF rest →
      k ∉ rest.map Prod.fst → EntriesWF ((k, n) :: rest)
end

example : buildFileTree ["a/b.ts", "a/c.ts", "d.ts"] =
    .ok [("a", .dir [("b.ts", .file), ("c.ts", .file)]), ("d.ts", .file)] := by rfl
example : buildFileTree ["a", "a/b"] = .ok [("a", .file)] := by rfl
example : buildFileTree ["a", "a/b/c"] = .error () := by rfl
example : buildFileTree ["a/b", "a"] = .ok [("a", .file)] := by rfl

/-! ## Language extractors (indexer.js lines 68-431)

A metadata record is a JavaScript object whose keys vary: the base record of
`extractFileMetadata` always carries `path`, `extension`, `size` and the
seven structural arrays, a language extractor's fragment is spread over it,
and the catch-branch record carries only `path`, `extension` and `error`.
`Option` fields encode key presence.

The Python extractor's four regex scans are embedded as executable scanners
that reproduce the `exec` loop (leftmost match, continue after the match
end).  The character classes `\s` and `\w` are modeled by `isWsChar` and
`isWordChar` (the rarely used Unicode whitespace forms are not modeled).

The JavaScript/TypeScript extractor involves regexes with alternations and
capture groups; its *match loops* (which is where deduplication lives) are
embedded exactly, parameterized by the lists of regex matches
(`JsMatches`).  Likewise the Java/C/C#/Go/Rust extractors enter
`extractFileMetadata` through an oracle `scan` standing for the
regex-scanning extractor selected by the `switch` on the extension. -/

def isWsChar (c : Char) : Bool :=
  c = ' ' || c = '\t' || c = '\n' || c = '\r'

def isWordChar (c : Char) : Bool :=
  c.isAlphanum || c = '_'

def isConstStart (c : Char) : Bool :=
  ('A' ≤ c && c ≤ 'Z') || c = '_'

def isConstRest (c : Char) : Bool :=
  ('A' ≤ c && c ≤ 'Z') || c.isDigit || c = '_'

/-- One attempt of `/def\s+(\w+)\s*\(/` at the current position: returns the
captured name and the input after the match end. -/
def tryPyDef : List Char → Option (String × List Char)
  | 'd' :: 'e' :: 'f' :: rest =>
    let (ws, r1) := rest.span isWsChar
    if ws.isEmpty then none
    else
      let (nm, r2) := r1.span isWordChar
      if nm.isEmpty then none
      else
        match (r2.dropWhile isWsChar) with
        | '(' :: r4 => some (String.mk nm, r4)
        | _ => none
  | _ => none

/-- The `exec` loop of `/def\s+(\w+)\s*\(/g`: leftmost matches, scanning
resumes after each match end.  Fueled by the input length (every step
consumes at least one character). -/
def pyDefScanAux : Nat → List Char → List String
  | 0, _ => []
  | _ + 1, [] => []
  | f + 1, c :: cs =>
    match tryPyDef (c :: cs) with
    | some (nm, rest) => nm :: pyDefScanAux f rest
    | none => pyDefScanAux f cs

def pyDefScan (content : List Char) : List String :=
  pyDefScanAux content.length content

/-- One attempt of `/class\s+(\w+)/` at the current position. -/
def tryPyClass : List Char → Option (String × List Char)
  | 'c' :: 'l' :: 'a' :: 's' :: 's' :: rest =>
    let (ws, r1) := rest.span isWsChar
    if ws.isEmpty then none
    else
      let (nm, r2) := r1.span isWordChar
      if nm.isEmpty then none else some (String.mk nm, r2)
  | _ => none

/-- The `exec` loop of `/class\s+(\w+)/g`. -/
def pyClassScanAux : Nat → List Char → List String
  | 0, _ => []
  | _ + 1, [] => []
  | f + 1, c :: cs =>
    match tryPyClass (c :: cs) with
    | some (nm, rest) => nm :: pyClassScanAux f rest
    | none => pyClassScanAux f cs

def pyClassScan (content : List Char) : List String :=
  pyClassScanAux content.length content

/-- One attempt of `/^([A-Z_][A-Z0-9_]*)\s*=/` at a line start. -/
def tryPyConst : List Char → Option (String × List Char)
  | [] => none
  | c :: cs =>
    if isConstStart c then
      let (nm, r1) := cs.span isConstRest
      match (r1.dropWhile isWsChar) with
      | '=' :: r3 => some (String.mk (c :: nm), r3)
      | _ => none
    else none

/-- The `exec` loop of `/^([A-Z_][A-Z0-9_]*)\s*=/gm`: the `^` anchor holds at
position 0 and right after a newline (`atStart` tracks it). -/
def pyConstScanAux : Nat → Bool → List Char → List String
  | 0, _, _ => []
  | _ + 1, _, [] => []
  | f + 1, atStart, c :: cs =>
    if atStart then
      match tryPyConst (c :: cs) with
      | some (nm, rest) => nm :: pyConstScanAux f false rest
      | none => pyConstScanAux f (c = '\n') cs
    else pyConstScanAux f (c = '\n') cs

def pyConstScan (content : List Char) : List String :=
  pyConstScanAux content.length true content

/-- One attempt of the suffix `import\s+([^\n]+)` at the current position. -/
def tryPyImportTail : List Char → Option (String × List Char)
  | 'i' :: 'm' :: 'p' :: 'o' :: 'r' :: 't' :: rest =>
    let (ws, r1) := rest.span isWsChar
    if ws.isEmpty then none
    else
      let (g2, r2) := r1.span (fun c => c ≠ '\n')
      if g2.isEmpty then none else some (String.mk g2, r2)
  | _ => none

/-- One attempt of the `from\s+(\S+)\s+` prefix followed by the import
tail. -/
def tryPyFrom : List Char → Option (String × String × List Char)
  | 'f' :: 'r' :: 'o' :: 'm' :: rest =>
    let (ws, r1) := rest.span isWsChar
    if ws.isEmpty then none
    else
      let (g1, r2) := r1.span (fun c => !isWsChar c)
      if g1.isEmpty then none
      else
        let (ws2, r3) := r2.span isWsChar
        if ws2.isEmpty then none
        else
          match tryPyImportTail r3 with
          | some (g2, rest') => some (String.mk g1, g2, rest')
          | none => none
  | _ => none

/-- One attempt of `/(?:from\s+(\S+)\s+)?import\s+([^\n]+)/`: the engine
tries the optional `from` group first. -/
def tryPyImport (s : List Char) : Option (Option String × String × List Char) :=
  match tryPyFrom s with
  | some (g1, g2, rest) => some (some g1, g2, rest)
  | none =>
    match tryPyImportTail s with
    | some (g2, rest) => some (none, g2, rest)
    | none => none

/-- `i.trim()`: strips leading and trailing whitespace. -/
def trimStr (s : String) : String :=
  String.mk (((s.data.dropWhile isWsChar).reverse.dropWhile isWsChar).reverse)

/-- `match[2].split(',').map(i => i.trim())`. -/
def pySplitImports (g2 : String) : List String :=
  (splitOnChar ',' g2.data).map trimStr

/-- The `exec` loop of the Python import regex with the per-match pushes of
indexer.js lines 227-233: group 1 (when present), then every trimmed
comma-separated piece of group 2. -/
def pyImportScanAux : Nat → List Char → List String
  | 0, _ => []
  | _ + 1, [] => []
  | f + 1, c :: cs =>
    match tryPyImport (c :: cs) with
    | some (g1, g2, rest) =>
      (match g1 with | some x => [x] | none => []) ++ pySplitImports g2 ++
        pyImportScanAux f rest
    | none => pyImportScanAux f cs

def pyImportScan (content : List Char) : List String :=
  pyImportScanAux content.length content

/-- A language extractor's fragment: only the keys the extractor's object
literal contains are present. -/
structure Fragment where
  imports : Option (List String) := none
  exports : Option (List String) := none
  functions : Option (List String) := none
  classes : Option (List String) := none
  interfaces : Option (List String) := none
  constants : Option (List String) := none
  types : Option (List String) := none
  lineCount : Option Nat := none
  hasComments : Option Bool := none
deriving DecidableEq, Repr

/-- `extractPythonMetadata` (indexer.js lines 216-254): four sequential
scans, none of which deduplicates; its object literal has exactly the keys
`imports`, `functions`, `classes`, `constants`. -/
def extractPythonMetadata (content : String) : Fragment :=
  { imports := some (pyImportScan content.data),
    functions := some (pyDefScan content.data),
    classes := some (pyClassScan content.data),
    constants := some (pyConstScan content.data) }

/-- `/\/\*[\s\S]*?\*\//` has a match: some `/*` with a later `*/`. -/
def hasBlockComment : List Char → Bool
  | '/' :: '*' :: rest => isSubstringList ['*', '/'] rest
  | _ :: rest => hasBlockComment rest
  | [] => false

/-- `extractGenericMetadata` (indexer.js lines 426-431): line count and a
comment-token scan.  `/\/\/.*$/m` and `/#.*$/m` succeed exactly when the
content contains `//` resp. `#`. -/
def extractGenericMetadata (content : String) : Fragment :=
  { lineCount := some (splitOnChar '\n' content.data).length,
    hasComments := some (
      (hasBlockComment content.data || isSubstringList ['/', '/'] content.data) ||
        isSubstringList ['#'] content.data) }

/-- Which alternative of the export regex's alternation matched (capture
groups 1-7 of indexer.js line 153). -/
inductive ExportKind where
  | efunc
  | eclass
  | econst
  | elet
  | evar
  | einterface
  | etype
deriving DecidableEq, Repr

/-- The matches fed to the JavaScript/TypeScript extractor's loops, in match
order: one list per regex of indexer.js lines 140-206. -/
structure JsMatches where
  importMatches : List String := []
  requireMatches : List String := []
  exportMatches : List (ExportKind × String) := []
  funcMatches : List String := []
  arrowMatches : List String := []
  classMatches : List String := []
  interfaceMatches : List String := []
  typeMatches : List String := []
  constMatches : List String := []
deriving Repr

/-- One guarded push: `if (!acc.includes(x)) acc.push(x)`. -/
def dedupPush (acc : List String) (x : String) : List String :=
  if acc.contains x then acc else acc ++ [x]

/-- A whole guarded-push loop over a match list. -/
def dedupPushAll (acc : List String) (xs : List String) : List String :=
  xs.foldl dedupPush acc

/-- `extractJavaScriptMetadata` (indexer.js lines 128-213).  The export scan
(lines 153-163) pushes unguarded into the bucket selected by the matched
group; the secondary scans (lines 166-211) push guarded by
`includes`.  Imports are the concatenation of the `import` and `require`
match lists, unguarded. -/
def extractJavaScriptMetadata (m : JsMatches) : Fragment :=
  let exportOf : ExportKind → List String := fun k =>
    (m.exportMatches.filter (fun e => e.1 = k)).map Prod.snd
  { imports := some (m.importMatches ++ m.requireMatches),
    exports := some ((m.exportMatches.filter
      (fun e => e.1 = .econst || e.1 = .elet || e.1 = .evar)).map Prod.snd),
    functions := some (dedupPushAll
      (dedupPushAll (exportOf .efunc) m.funcMatches) m.arrowMatches),
    classes := some (dedupPushAll (exportOf .eclass) m.classMatches),
    interfaces := some (dedupPushAll (exportOf .einterface) m.interfaceMatches),
    types := some (dedupPushAll (exportOf .etype) m.typeMatches),
    constants := some (dedupPushAll [] m.constMatches) }

example : pyDefScan "def f(x):\n    pass\n\ndef f(y):\n    pass\n".data = ["f", "f"] := by decide
example : pyImportScan "import os\nfrom a.b import c, d\nimport os\n".data =
    ["os", "a.b", "c", "d", "os"] := by decide
example : pyClassScan "class A:\n  pass\nclass A:\n  pass\n".data = ["A", "A"] := by decide
example : pyConstScan "FOO = 1\nx = 2\nFOO = 3\n".data = ["FOO", "FOO"] := by decide

/-! ## Per-file records and `extractFileMetadata` (indexer.js lines 68-126) -/

/-- A per-file metadata record; `Option` encodes which keys the JavaScript
object carries.  The catch branch produces a record with only `path`,
`extension` and `error`. -/
structure Metadata where
  path : String
  extension : String
  size : Option Nat := none
  imports : Option (List String) := none
  exports : Option (List String) := none
  functions : Option (List String) := none
  classes : Option (List String) := none
  interfaces : Option (List String) := none
  constants : Option (List String) := none
  types : Option (List String) := none
  lineCount : Option Nat := none
  hasComments : Option Bool := none
  error : Option String := none
deriving DecidableEq, Repr

/-- `path.extname`: the extension of the final path segment, from its last
dot, empty when the dot is missing or leading, and empty for all-dot
names. -/
def extnameOf (p : String) : String :=
  let base := ((splitOnChar '/' p.data).getLastD "")
  if base.data.all (fun c => c = '.') then ""
  else
    match splitOnChar '.' base.data with
    | [] => ""
    | [_] => ""
    | [h, t] => if h = "" then "" else "." ++ t
    | parts => "." ++ parts.getLastD ""

/-- The record returned by the catch branch of `extractFileMetadata`
(indexer.js lines 118-125). -/
def errorRecord (filePath msg : String) : Metadata :=
  { path := filePath, extension := extnameOf filePath, error := some msg }

/-- The base record built at indexer.js lines 73-84 before the language
fragment is spread over it (`content.length` is modeled as the character
count). -/
def baseMetadata (filePath ext : String) (content : String) : Metadata :=
  { path := filePath, extension := ext, size := some content.length,
    imports := some [], exports := some [], functions := some [],
    classes := some [], interfaces := some [], constants := some [],
    types := some [] }

/-- Option override, as performed key-wise by `{...metadata, ...fragment}`:
a key present in the fragment wins. -/
def spreadKey {α : Type} : Option α → Option α → Option α
  | some v, _ => some v
  | none, b => b

/-- `{ ...metadata, ...fragment }` (indexer.js lines 91-114). -/
def applyFragment (m : Metadata) (f : Fragment) : Metadata :=
  { m with
    imports := spreadKey f.imports m.imports,
    exports := spreadKey f.exports m.exports,
    functions := spreadKey f.functions m.functions,
    classes := spreadKey f.classes m.classes,
    interfaces := spreadKey f.interfaces m.interfaces,
    constants := spreadKey f.constants m.constants,
    types := spreadKey f.types m.types,
    lineCount := spreadKey f.lineCount m.lineCount,
    hasComments := spreadKey f.hasComments m.hasComments }

/-- Extensions routed by the `switch` of indexer.js lines 86-115 to the
regex-scanning extractors that are modeled through the `scan` oracle. -/
def regexLangExts : List String :=
  [".js", ".jsx", ".ts", ".tsx", ".java", ".cpp", ".c", ".h", ".cs", ".go", ".rs"]

/-- `extractFileMetadata` (indexer.js lines 68-126).  `fs` is the filesystem
oracle (`fs.readFileSync`, failing with the error message); `scan` stands for
the regex-based extractors (JavaScript family, Java, C, C#, Go, Rust) applied
to the extension and content; `.py` uses the embedded Python extractor and
anything else the generic one.  Any read failure lands in the catch branch:
the record keeps only path, extension and the error string. -/
def extractFileMetadata (fs : String → Except String String)
    (scan : String → String → Fragment) (filePath : String) : Metadata :=
  match fs filePath with
  | .error e => errorRecord filePath e
  | .ok content =>
    let ext := extnameOf filePath
    let frag :=
      if regexLangExts.contains ext then scan ext content
      else if ext = ".py" then extractPythonMetadata content
      else extractGenericMetadata content
    applyFragment (baseMetadata filePath ext content) frag

/-! ## Summary aggregator (`generateSummary`, indexer.js lines 523-555) -/

/-- `metadata.extension || 'unknown'`: the empty extension is falsy. -/
def extKey (ext : String) : String :=
  if ext = "" then "unknown" else ext

/-- `summary.filesByExtension[ext] = (summary.filesByExtension[ext] || 0) + 1`. -/
def bumpExt : List (String × Nat) → String → List (String × Nat)
  | [], k => [(k, 1)]
  | (k', c) :: rest, k =>
    if k' = k then (k', c + 1) :: rest else (k', c) :: bumpExt rest k

/-- Count lookup with the JavaScript `|| 0` default. -/
def lookupCount : List (String × Nat) → String → Nat
  | [], _ => 0
  | (k', c) :: rest, k => if k' = k then c else lookupCount rest k

/-- `if (metadata.functions) total += metadata.functions.length`. -/
def optLen (o : Option (List String)) : Nat :=
  match o with
  | some l => l.length
  | none => 0

/-- Insert into a list sorted by size descending, after every element of
size strictly greater and before the first of equal or smaller size.  This
is the unique stable descending order, hence what the (specified-stable)
`Array.prototype.sort` with comparator `(a, b) => b.size - a.size`
produces. -/
def insertDescBySize (x : String × Nat) : List (String × Nat) → List (String × Nat)
  | [] => [x]
  | y :: ys => if y.2 ≤ x.2 then x :: y :: ys else y :: insertDescBySize x ys

/-- Stable sort by size descending (insertion sort). -/
def sortDescBySize : List (String × Nat) → List (String × Nat)
  | [] => []
  | x :: xs => insertDescBySize x (sortDescBySize xs)

/-- The `fileSizes` array (indexer.js lines 533-547): only records whose
`size` key is present and truthy (nonzero) are pushed. -/
def fileSizesOf (entries : List (String × Metadata)) : List (String × Nat) :=
  entries.filterMap (fun e =>
    match e.2.size with
    | some s => if s = 0 then none else some (e.1, s)
    | none => none)

structure Summary where
  totalFunctions : Nat
  totalClasses : Nat
  totalInterfaces : Nat
  totalConstants : Nat
  filesByExtension : List (String × Nat)
  largestFiles : List (String × Nat)
deriving DecidableEq, Repr

/-- `generateSummary` (indexer.js lines 523-555) over the entries of the
`fileMetadata` object in insertion order: category totals, extension
buckets, and the ten largest files by recorded size, sorted descending with
the stable engine sort and truncated by `slice(0, 10)`. -/
def generateSummary (entries : List (String × Metadata)) : Summary :=
  { totalFunctions := entries.foldl (fun n e => n + optLen e.2.functions) 0,
    totalClasses := entries.foldl (fun n e => n + optLen e.2.classes) 0,
    totalInterfaces := entries.foldl (fun n e => n + optLen e.2.interfaces) 0,
    totalConstants := entries.foldl (fun n e => n + optLen e.2.constants) 0,
    filesByExtension := entries.foldl (fun acc e => bumpExt acc (extKey e.2.extension)) [],
    largestFiles := (sortDescBySize (fileSizesOf entries)).take 10 }

/-! ## Index assembler (`generateIndex`, indexer.js lines 485-521)

Discovery (`scanDirectory`) walks the real filesystem; the embedding takes
the discovered relative paths as input.  The document's `generatedAt` and
`projectRoot` are passed through.  Persistence (`writeFileSync`) produces the
returned document's serialization and is not modeled further. -/

structure IndexDocument where
  generatedAt : String
  projectRoot : String
  totalFiles : Nat
  fileTree : Entries
  files : List (String × Metadata)
  summary : Summary
deriving Repr

/-- `generateIndex` (indexer.js lines 485-521): the file tree is built
first (a `TypeError` thrown there propagates), then every file is extracted
— `extractFileMetadata` never throws — and stored in the `fileMetadata`
object keyed by its relative path, then the document is assembled with
`totalFiles = files.length` and the summary. -/
def generateIndex (fs : String → Except String String)
    (scan : String → String → Fragment) (rootDir nowIso : String)
    (files : List String) : Except Unit IndexDocument := do
  let tree ← buildFileTree files
  let fileMetadata := files.foldl
    (fun acc f =>
      let m := extractFileMetadata fs scan f
      setKV acc m.path m) []
  .ok { generatedAt := nowIso, projectRoot := rootDir,
        totalFiles := files.length, fileTree := tree,
        files := fileMetadata, summary := generateSummary fileMetadata }

example :
    (generateSummary [("a", baseMetadata "a" ".x" "0123456789"),
      ("b", { baseMetadata "b" ".x" "" with size := some 50 }),
      ("c", { baseMetadata "c" ".x" "" with size := some 5 }),
      ("d", { baseMetadata "d" ".x" "" with size := some 50 })]).largestFiles =
    [("b", 50), ("d", 50), ("a", 10), ("c", 5)] := by decide
example : extnameOf "src/util.min.js" = ".js" := by decide
example : extnameOf "src/.bashrc" = "" := by decide
example : extnameOf "Makefile" = "" := by decide

/-! ## Rebuild scheduler (`ProjectWatcher`, watcher source file)

`scheduleRebuild` reads: if `isRebuilding`, return; otherwise clear any
pending timer and arm a fresh one for `debounceMs` from now, whose callback
runs `generateIndex`, which itself returns immediately when `isRebuilding`
is already set and otherwise flags `isRebuilding` for the duration of the
build.

Two complementary models are used.

`runDebounce` is a timed model of the debounce loop for event streams whose
gaps are compared against the delay: the state is the pending timer's
deadline; an event at time `t` first lets an expired timer fire (running one
rebuild — `generateIndex` is synchronous, so the build is over before the
next callback runs), then re-arms the timer `debounceMs` after `t`; a timer
still pending after the last event eventually fires.

`watcherStep` is an untimed state machine making the build interval
explicit, so that events arriving *while a build is in progress* can be
expressed: `timerFire` consumes an armed timer and starts a build unless one
is running, `buildFinish` ends it (the `finally` branch), and a filesystem
event runs `scheduleRebuild`.  The returned number counts builds started. -/

/-- Timed debounce loop: `pending` is the armed timer's deadline, the result
counts rebuilds.  Event times are in ascending order. -/
def runDebounce (debounceMs : Nat) : Option Nat → List Nat → Nat
  | some _, [] => 1
  | none, [] => 0
  | some d, t :: ts =>
    if d ≤ t then 1 + runDebounce debounceMs (some (t + debounceMs)) ts
    else runDebounce debounceMs (some (t + debounceMs)) ts
  | none, t :: ts => runDebounce debounceMs (some (t + debounceMs)) ts

/-- The scheduler's mutable state: `this.rebuildTimer` (armed or not) and
`this.isRebuilding`. -/
structure WatcherState where
  rebuildTimer : Bool
  isRebuilding : Bool
deriving DecidableEq, Repr

/-- `scheduleRebuild` (watcher source, lines 132-146): early-returns while a
build is in progress; otherwise clearing the old timer and arming a new one
leaves exactly one armed timer. -/
def scheduleRebuild (s : WatcherState) : WatcherState :=
  if s.isRebuilding then s
  else { rebuildTimer := true, isRebuilding := s.isRebuilding }

inductive WatchEvent where
  | fsEvent
  | timerFire
  | buildFinish
deriving DecidableEq, Repr

/-- One scheduler transition; the second component is 1 when a build
starts.  `timerFire` runs the timer's callback `generateIndex`, whose own
guard drops the call if a build is somehow already running. -/
def watcherStep (s : WatcherState) : WatchEvent → WatcherState × Nat
  | .fsEvent => (scheduleRebuild s, 0)
  | .timerFire =>
    if s.rebuildTimer then
      if s.isRebuilding then ({ rebuildTimer := false, isRebuilding := s.isRebuilding }, 0)
      else ({ rebuildTimer := false, isRebuilding := true }, 1)
    else (s, 0)
  | .buildFinish => ({ rebuildTimer := s.rebuildTimer, isRebuilding := false }, 0)

/-- Runs a sequence of scheduler transitions, summing builds started. -/
def runWatcher : WatcherState → List WatchEvent → WatcherState × Nat
  | s, [] => (s, 0)
  | s, e :: es =>
    let (s', n) := watcherStep s e
    let (s'', m) := runWatcher s' es
    (s'', n + m)

/-- `this.debounceMs = options.debounceMs || 1000` (watcher source, line 12):
`none` models an absent (or `NaN`) option, and the number `0` is falsy. -/
def effectiveDebounceMs (option : Option Int) : Int :=
  match option with
  | some v => if v = 0 then 1000 else v
  | none => 1000

example : runDebounce 1000 none [0, 500, 900, 1200] = 1 := by decide
example : runDebounce 1000 none [0, 2000, 4000] = 3 := by decide
example : runWatcher ⟨false, true⟩ [.fsEvent, .buildFinish, .buildFinish] =
    (⟨false, false⟩, 0) := by decide
example : effectiveDebounceMs (some 0) = 1000 := by decide

/-- Whether an `Except` computation succeeded. -/
def isOkE {ε α : Type} : Except ε α → Bool
  | .ok _ => true
  | .error _ => false

/-! ## Theorems -/

/-- A burst whose gaps are all under the delay only ever re-arms the pending
timer, which fires once at the end. -/
theorem runDebounce_burst (D : Nat) :
    ∀ (ts : List Nat) (prev : Nat),
      List.Chain' (fun a b => b < a + D) (prev :: ts) →
      runDebounce D (some (prev + D)) ts = 1 := by
  intro ts
  induction ts with
  | nil => intro prev _; rfl
  | cons t ts ih =>
    intro prev hc
    rw [List.chain'_cons] at hc
    have hlt : t < prev + D := hc.1
    simp only [runDebounce, if_neg (by omega : ¬ prev + D ≤ t)]
    exact ih t hc.2

/-- Events spaced beyond the delay each let the pending timer fire first. -/
theorem runDebounce_spaced (D : Nat) :
    ∀ (ts : List Nat) (prev : Nat),
      List.Chain' (fun a b => a + D < b) (prev :: ts) →
      runDebounce D (some (prev + D)) ts = 1 + ts.length := by
  intro ts
  induction ts with
  | nil => intro prev _; rfl
  | cons t ts ih =>
    intro prev hc
    rw [List.chain'_cons] at hc
    simp only [runDebounce, if_pos (by omega : prev + D ≤ t)]
    rw [ih t hc.2]
    simp [List.length_cons]
    omega

/-- C6: a burst of events each arriving less than the debounce delay after
the previous one triggers exactly one rebuild, while events spaced more than
the delay apart each trigger their own rebuild. -/
theorem c6_debounce_coalescing (D : Nat) (ts : List Nat) :
    (ts ≠ [] → List.Chain' (fun a b => b < a + D) ts → runDebounce D none ts = 1) ∧
    (List.Chain' (fun a b => a + D < b) ts → runDebounce D none ts = ts.length) := by
  constructor
  · intro hne hc
    cases ts with
    | nil => exact absurd rfl hne
    | cons t ts' =>
      simp only [runDebounce]
      exact runDebounce_burst D ts' t hc
  · intro hc
    cases ts with
    | nil => rfl
    | cons t ts' =>
      simp only [runDebounce]
      rw [runDebounce_spaced D ts' t hc]
      simp only [List.length_cons]
      omega

/-- Closed instance of C6's theorem: three sub-delay events coalesce into
one rebuild, three super-delay events give three. -/
theorem c6_debounce_coalescing_witness :
    runDebounce 1000 none [0, 500, 900] = 1 ∧
    runDebounce 1000 none [0, 2000, 4000] = 3 :=
  ⟨(c6_debounce_coalescing 1000 [0, 500, 900]).1 (by decide)
      (by simp [List.chain'_cons]),
   (c6_debounce_coalescing 1000 [0, 2000, 4000]).2 (by simp [List.chain'_cons])⟩

/-- C7: an event delivered while a build is in progress is dropped:
`scheduleRebuild` returns with the state untouched (no timer armed, nothing
queued), and any continuation behaves exactly as if the event had never
been delivered — in particular no additional rebuild happens after the
build finishes. -/
theorem c7_event_during_build_dropped (s : WatcherState)
    (evs : List WatchEvent) (h : s.isRebuilding = true) :
    watcherStep s .fsEvent = (s, 0) ∧
    runWatcher s (.fsEvent :: evs) = runWatcher s evs := by
  have hstep : watcherStep s .fsEvent = (s, 0) := by
    simp [watcherStep, scheduleRebuild, h]
  have hrun : runWatcher s (.fsEvent :: evs) = runWatcher s evs := by
    rcases hr : runWatcher s evs with ⟨s2, m⟩
    simp [runWatcher, hstep, hr]
  exact ⟨hstep, hrun⟩

/-- Closed instance of C7's theorem: in the building state, an event
followed by build completion yields zero further rebuilds and the same run
as without the event. -/
theorem c7_event_during_build_dropped_witness :
    watcherStep ⟨false, true⟩ .fsEvent = (⟨false, true⟩, 0) ∧
    runWatcher ⟨false, true⟩ [.fsEvent, .buildFinish] =
      runWatcher ⟨false, true⟩ [.buildFinish] :=
  c7_event_during_build_dropped ⟨false, true⟩ [.buildFinish] rfl

/-- C10: a configured debounce of `0` (or an absent/falsy option) falls back
to the default 1000 ms, and no option value can make the effective debounce
zero. -/
theorem c10_zero_debounce_impossible (o : Option Int) :
    effectiveDebounceMs (some 0) = 1000 ∧
    effectiveDebounceMs none = 1000 ∧
    effectiveDebounceMs o ≠ 0 := by
  refine ⟨rfl, rfl, ?_⟩
  match o with
  | none => simp [effectiveDebounceMs]
  | some v =>
    simp only [effectiveDebounceMs]
    split
    · omega
    · assumption

/-- Helper: looking up the key just set returns the new value. -/
theorem lookupKV_setKV_self {α : Type} (l : List (String × α)) (k : String) (v : α) :
    lookupKV (setKV l k v) k = some v := by
  induction l with
  | nil => simp [setKV, lookupKV]
  | cons hd tl ih =>
    obtain ⟨k', v'⟩ := hd
    by_cases h : k' = k
    · simp [setKV, lookupKV, h]
    · simp [setKV, lookupKV, h, ih]

/-- C2 counterexample: after inserting the file `a`, inserting `a/b` does
not turn the `a` entry into a directory — the tree keeps the file marker
for `a` and the nested path is silently lost. -/
theorem c2_counterexample :
    buildFileTree ["a", "a/b"] = .ok [("a", Node.file)] ∧
    (Except.ok [("a", Node.file)] : Except Unit Entries) ≠
      .ok [("a", Node.dir [("b", Node.file)])] := by
  constructor
  · rfl
  · simp

/-- C2 amended: when a segment exists as a directory and a later path ends
at that segment (requiring it to be a file), the insertion overwrites the
directory with a file marker; but when the segment exists as a file marker
and a later path descends through it (requiring it to be a directory),
nothing is overwritten: with exactly one further segment the insertion is a
silent no-op, and with two or more the insertion throws a `TypeError`,
aborting `buildFileTree`. -/
theorem c2_collision_overwrite (es : Entries) (k r r2 : String) (rs : List String) :
    (∀ sub : Entries, lookupKV es k = some (Node.dir sub) →
      insertParts es [k] = .ok (setKV es k .file) ∧
      lookupKV (setKV es k .file) k = some Node.file) ∧
    (lookupKV es k = some Node.file →
      insertParts es [k, r] = .ok es ∧
      insertParts es (k :: r :: r2 :: rs) = .error ()) := by
  refine ⟨fun sub _ => ⟨rfl, lookupKV_setKV_self es k .file⟩, fun hfile => ⟨?_, ?_⟩⟩
  · simp only [insertParts, hfile]
    rfl
  · simp only [insertParts, hfile]
    rfl

/-- Closed instance of C2's amended theorem: a directory at `a` is
overwritten by the later file `a`, while a file at `a` survives the later
paths `a/b` (dropped) and `a/b/c` (thrown). -/
theorem c2_collision_overwrite_witness :
    (insertParts [("a", Node.dir [("b", Node.file)])] ["a"] =
        .ok (setKV [("a", Node.dir [("b", Node.file)])] "a" .file) ∧
      lookupKV (setKV [("a", Node.dir [("b", Node.file)])] "a" .file) "a" =
        some Node.file) ∧
    (insertParts [("a", Node.file)] ["a", "b"] = .ok [("a", Node.file)] ∧
      insertParts [("a", Node.file)] ["a", "b", "c"] = .error ()) :=
  ⟨(c2_collision_overwrite [("a", Node.dir [("b", Node.file)])] "a" "b" "c" []).1
      [("b", Node.file)] rfl,
   (c2_collision_overwrite [("a", Node.file)] "a" "b" "c" []).2 rfl⟩

/-- Helper: one guarded push keeps the accumulator duplicate-free. -/
theorem dedupPush_nodup (acc : List String) (x : String) (h : acc.Nodup) :
    (dedupPush acc x).Nodup := by
  unfold dedupPush
  split
  · exact h
  · rename_i hc
    rw [← List.concat_eq_append]
    exact List.Nodup.concat (by simpa using hc) h

/-- Helper: a whole guarded-push loop keeps the accumulator
duplicate-free. -/
theorem dedupPushAll_nodup (xs : List String) :
    ∀ acc : List String, acc.Nodup → (dedupPushAll acc xs).Nodup := by
  induction xs with
  | nil => intro acc h; exact h
  | cons x xs ih => intro acc h; exact ih (dedupPush acc x) (dedupPush_nodup acc x h)

/-- C4 counterexample: the Python extractor records an identifier once per
regex match, so a function defined twice in one file appears twice in the
`functions` category — declaration categories are not always
deduplicated. -/
theorem c4_counterexample :
    (extractPythonMetadata "def f(x):\n    pass\n\ndef f(y):\n    pass\n").functions =
      some ["f", "f"] ∧
    ¬ (["f", "f"] : List String).Nodup := by
  constructor
  · rfl
  · decide

/-- C4 amended: in the JavaScript extractor the secondary declaration scans
push through an `includes` guard, so starting from a duplicate-free bucket
each category stays duplicate-free — in particular all five buckets are
duplicate-free whenever the export scan contributed nothing — but the export
scan itself pushes unguarded and can introduce duplicates; the Python
extractor never deduplicates; imports are never deduplicated in either
(order and repetition of the match lists are preserved). -/
theorem c4_dedup_except_exports_and_python :
    (∀ (acc xs : List String), acc.Nodup → (dedupPushAll acc xs).Nodup) ∧
    (∀ m : JsMatches, m.exportMatches = [] →
      ((extractJavaScriptMetadata m).functions.getD []).Nodup ∧
      ((extractJavaScriptMetadata m).classes.getD []).Nodup ∧
      ((extractJavaScriptMetadata m).interfaces.getD []).Nodup ∧
      ((extractJavaScriptMetadata m).types.getD []).Nodup ∧
      ((extractJavaScriptMetadata m).constants.getD []).Nodup) ∧
    (extractJavaScriptMetadata { exportMatches := [(.eclass, "A"), (.eclass, "A")] }).classes
      = some ["A", "A"] ∧
    (∀ m : JsMatches, (extractJavaScriptMetadata m).imports =
      some (m.importMatches ++ m.requireMatches)) ∧
    (extractPythonMetadata "import os\nimport os\n").imports = some ["os", "os"] := by
  refine ⟨fun acc xs h => dedupPushAll_nodup xs acc h, ?_, rfl, fun m => rfl, rfl⟩
  intro m hm
  simp only [extractJavaScriptMetadata, hm, List.filter_nil, List.map_nil, Option.getD_some]
  exact ⟨dedupPushAll_nodup _ _ (dedupPushAll_nodup _ _ List.nodup_nil),
    dedupPushAll_nodup _ _ List.nodup_nil,
    dedupPushAll_nodup _ _ List.nodup_nil,
    dedupPushAll_nodup _ _ List.nodup_nil,
    dedupPushAll_nodup _ _ List.nodup_nil⟩

/-- Closed instance of C4's amended theorem: a guarded-push loop over a
match list with repetitions yields a duplicate-free bucket, and so does the
whole JavaScript extractor when the export scan matched nothing. -/
theorem c4_dedup_except_exports_and_python_witness :
    (dedupPushAll ["a"] ["b", "a", "b"]).Nodup ∧
    ((extractJavaScriptMetadata { funcMatches := ["f", "g", "f"] }).functions.getD []).Nodup :=
  ⟨c4_dedup_except_exports_and_python.1 ["a"] ["b", "a", "b"] (by decide),
   (c4_dedup_except_exports_and_python.2.1 { funcMatches := ["f", "g", "f"] } rfl).1⟩

/-- Helper: the two string replacements followed by reading the regex back
agree with the direct token compilation, for patterns made of safe
characters. -/
theorem compile_pipeline_eq : ∀ (p : List Char), p.all regexSafeChar = true →
    parseRegex (replaceStar (replaceDoubleStar p)) = directCompile p := by
  intro p
  induction p using directCompile.induct with
  | case1 rest ih =>
    intro h
    simp only [List.all_cons, Bool.and_eq_true] at h
    simp only [replaceDoubleStar, replaceStar, parseRegex, directCompile]
    rw [ih h.2.2]
  | case2 rest hne ih =>
    intro h
    simp only [List.all_cons, Bool.and_eq_true] at h
    rw [replaceDoubleStar.eq_2 '*' rest (fun r1 _ hr => hne r1 hr),
        replaceStar.eq_1, parseRegex.eq_1,
        directCompile.eq_2 rest hne, ih h.2]
  | case3 rest ih =>
    intro h
    simp only [List.all_cons, Bool.and_eq_true] at h
    rw [replaceDoubleStar.eq_2 '.' rest (fun _ hc _ => absurd hc (by decide)),
        replaceStar.eq_2 '.' (replaceDoubleStar rest) (fun hc => absurd hc (by decide)),
        parseRegex.eq_3, directCompile.eq_3, ih h.2]
  | case4 c rest h1 h2 h3 ih =>
    intro h
    simp only [List.all_cons, Bool.and_eq_true] at h
    have hsafe := h.1
    have hlb : c ≠ '[' := by
      intro he; rw [he] at hsafe; exact absurd hsafe (by decide)
    rw [replaceDoubleStar.eq_2 c rest h1,
        replaceStar.eq_2 c (replaceDoubleStar rest) h2,
        parseRegex.eq_4 c _ (fun _ hc _ => hlb hc) (fun _ hc _ => hlb hc) h3,
        directCompile.eq_4 c rest h1 h2 h3, ih h.2]
  | case5 => intro _; rfl

/-- C1 counterexample: under the claim's glob semantics the pattern
`a/**/b` matches `a/x/y/b` (`**` spans the two segments), but the matcher
does not exclude that path — the compiled regex `a/.[^/]*/b` cannot span
two path segments. -/
theorem c1_counterexample :
    shouldIgnoreFile ["a/**/b"] "a/x/y/b" = false ∧
    specGlobMatch "a/**/b" "a/x/y/b" = true :=
  ⟨by decide, by decide⟩

/-- C1 amended: for a pattern containing `**` (built from alphanumerics and
`_ - / . *`), the matcher excludes a path exactly when the compiled token
regex matches at *some position* of the relative path (unanchored), where —
because the `*` left by rewriting `**` into `.*` is itself rewritten into
`[^/]*` — `**` matches one arbitrary character followed by a run of
non-separator characters, a lone `*` matches a run of non-separator
characters, and `.` matches any single character: not the anchored
any-number-of-segments glob semantics of the claim. -/
theorem c1_ignore_regex_semantics (p rel : String)
    (hsafe : p.data.all regexSafeChar = true)
    (hds : containsDoubleStar p.data = true) :
    shouldIgnoreFile [p] rel = reTest (directCompile p.data) rel.data := by
  simp only [shouldIgnoreFile, List.any_cons, List.any_nil, Bool.or_false,
    shouldIgnoreSingle, hds, if_true]
  rw [compile_pipeline_eq p.data hsafe]

/-- Closed instance of C1's amended theorem at the pattern `a/**/b` and the
path `a/x/b`. -/
theorem c1_ignore_regex_semantics_witness :
    shouldIgnoreFile ["a/**/b"] "a/x/b" =
      reTest (directCompile "a/**/b".data) "a/x/b".data :=
  c1_ignore_regex_semantics "a/**/b" "a/x/b" (by decide) (by decide)

/-- Helper: inserting into the descending list is a permutation of
consing. -/
theorem insertDescBySize_perm (x : String × Nat) (l : List (String × Nat)) :
    (insertDescBySize x l).Perm (x :: l) := by
  induction l with
  | nil => exact List.Perm.refl _
  | cons y ys ih =>
    by_cases hle : y.2 ≤ x.2
    · simp [insertDescBySize, hle]
    · simp only [insertDescBySize, if_neg hle]
      exact (ih.cons y).trans (List.Perm.swap x y ys)

/-- Helper: inserting preserves descending order by size. -/
theorem insertDescBySize_sorted (x : String × Nat) (l : List (String × Nat))
    (h : l.Pairwise (fun a b => b.2 ≤ a.2)) :
    (insertDescBySize x l).Pairwise (fun a b => b.2 ≤ a.2) := by
  induction l with
  | nil => simp [insertDescBySize]
  | cons y ys ih =>
    rw [List.pairwise_cons] at h
    by_cases hle : y.2 ≤ x.2
    · simp only [insertDescBySize, if_pos hle]
      rw [List.pairwise_cons]
      refine ⟨?_, List.pairwise_cons.mpr h⟩
      intro z hz
      rw [List.mem_cons] at hz
      rcases hz with rfl | hz
      · omega
      · have := h.1 z hz; omega
    · simp only [insertDescBySize, if_neg hle]
      rw [List.pairwise_cons]
      refine ⟨?_, ih h.2⟩
      intro z hz
      have hz' : z ∈ x :: ys := (insertDescBySize_perm x ys).mem_iff.mp hz
      rw [List.mem_cons] at hz'
      rcases hz' with rfl | hz'
      · omega
      · exact h.1 z hz'

/-- Helper: the sort is a permutation of its input. -/
theorem sortDescBySize_perm (l : List (String × Nat)) :
    (sortDescBySize l).Perm l := by
  induction l with
  | nil => exact List.Perm.refl _
  | cons x xs ih =>
    exact (insertDescBySize_perm x (sortDescBySize xs)).trans (ih.cons x)

/-- Helper: the sort is descending by size. -/
theorem sortDescBySize_sorted (l : List (String × Nat)) :
    (sortDescBySize l).Pairwise (fun a b => b.2 ≤ a.2) := by
  induction l with
  | nil => simp [sortDescBySize]
  | cons x xs ih => exact insertDescBySize_sorted x (sortDescBySize xs) ih

/-- Helper: entries of one fixed size pass through an insertion unmoved
relative to each other (the inserted element goes in front of them exactly
when it has that size, because everything it skips is strictly larger). -/
theorem filter_insertDescBySize (x : String × Nat) (l : List (String × Nat)) (s : Nat) :
    (insertDescBySize x l).filter (fun y => y.2 == s) =
      (x :: l).filter (fun y => y.2 == s) := by
  induction l with
  | nil => rfl
  | cons y ys ih =>
    by_cases hle : y.2 ≤ x.2
    · simp [insertDescBySize, hle]
    · have hlt : x.2 < y.2 := Nat.lt_of_not_le hle
      simp only [insertDescBySize, if_neg hle, List.filter_cons]
      rw [ih]
      simp only [List.filter_cons]
      by_cases hx : x.2 = s
      · have hy : ¬ y.2 = s := by omega
        simp [hx, hy]
      · simp [hx]

/-- Helper: the sort is stable — entries of equal size keep their input
(discovery) order. -/
theorem sortDescBySize_stable (l : List (String × Nat)) (s : Nat) :
    (sortDescBySize l).filter (fun y => y.2 == s) =
      l.filter (fun y => y.2 == s) := by
  induction l with
  | nil => rfl
  | cons x xs ih =>
    have : (sortDescBySize (x :: xs)) = insertDescBySize x (sortDescBySize xs) := rfl
    rw [this, filter_insertDescBySize]
    simp only [List.filter_cons]
    rw [ih]

/-- C5 counterexample: a mapping holding a single empty file (size 0, well
below the ten-files cutoff) yields an empty `largestFiles`, although the
at-most-ten-largest-files sequence of the claim at this input is the
one-element sequence with that file. -/
theorem c5_counterexample :
    (generateSummary [("e", baseMetadata "e" ".x" "")]).largestFiles = [] ∧
    (baseMetadata "e" ".x" "").size = some 0 ∧
    ([] : List (String × Nat)) ≠ [("e", 0)] := by
  refine ⟨rfl, rfl, by decide⟩

/-- C5 amended: `largestFiles` is the at-most-ten largest *among the files
with a present, nonzero recorded size* (records with `size` 0 — empty files
— or without a `size` key are excluded by the truthiness test), sorted
descending with equal sizes keeping discovery order; on sizes
`[10, 50, 5, 50]` at paths `a, b, c, d` this gives `[b, d, a, c]`. -/
theorem c5_largest_files_ranking (entries : List (String × Metadata)) :
    ((generateSummary entries).largestFiles =
      (sortDescBySize (fileSizesOf entries)).take 10) ∧
    (sortDescBySize (fileSizesOf entries)).Pairwise (fun a b => b.2 ≤ a.2) ∧
    (sortDescBySize (fileSizesOf entries)).Perm (fileSizesOf entries) ∧
    (∀ s, (sortDescBySize (fileSizesOf entries)).filter (fun y => y.2 == s) =
      (fileSizesOf entries).filter (fun y => y.2 == s)) ∧
    ((sortDescBySize (fileSizesOf entries)).drop 10).all
      (fun x => ((generateSummary entries).largestFiles).all
        (fun y => decide (x.2 ≤ y.2))) = true ∧
    (generateSummary [("a", baseMetadata "a" ".x" "0123456789"),
      ("b", { baseMetadata "b" ".x" "" with size := some 50 }),
      ("c", { baseMetadata "c" ".x" "" with size := some 5 }),
      ("d", { baseMetadata "d" ".x" "" with size := some 50 })]).largestFiles =
      [("b", 50), ("d", 50), ("a", 10), ("c", 5)] := by
  refine ⟨rfl, sortDescBySize_sorted _, sortDescBySize_perm _,
    fun s => sortDescBySize_stable _ s, ?_, by decide⟩
  rw [List.all_eq_true]
  intro x hx
  rw [List.all_eq_true]
  intro y hy
  rw [decide_eq_true_eq]
  have hsorted := sortDescBySize_sorted (fileSizesOf entries)
  rw [← List.take_append_drop 10 (sortDescBySize (fileSizesOf entries))] at hsorted
  have hcross := (List.pairwise_append.mp hsorted).2.2
  exact hcross y hy x hx

/-- Helper: bumping a key increments its count. -/
theorem lookupCount_bumpExt_self (l : List (String × Nat)) (k : String) :
    lookupCount (bumpExt l k) k = lookupCount l k + 1 := by
  induction l with
  | nil => simp [bumpExt, lookupCount]
  | cons hd tl ih =>
    obtain ⟨k', c⟩ := hd
    by_cases h : k' = k
    · simp [bumpExt, lookupCount, h]
    · simp [bumpExt, lookupCount, h, ih]

/-- Helper: bumping another key leaves a count unchanged. -/
theorem lookupCount_bumpExt_ne (l : List (String × Nat)) (k' k : String)
    (h : k' ≠ k) : lookupCount (bumpExt l k') k = lookupCount l k := by
  induction l with
  | nil => simp [bumpExt, lookupCount, h]
  | cons hd tl ih =>
    obtain ⟨k₁, c⟩ := hd
    by_cases h1 : k₁ = k'
    · subst h1
      simp [bumpExt, lookupCount, h]
    · by_cases h2 : k₁ = k
      · subst h2
        simp [bumpExt, lookupCount, h1]
      · simp [bumpExt, lookupCount, h1, h2, ih]

/-- Helper: the extension-bucket fold counts exactly the entries mapping to
the key. -/
theorem lookupCount_extFold (entries : List (String × Metadata)) :
    ∀ (init : List (String × Nat)) (key : String),
      lookupCount (entries.foldl (fun acc e => bumpExt acc (extKey e.2.extension)) init) key =
        lookupCount init key +
          (entries.filter (fun e => extKey e.2.extension == key)).length := by
  induction entries with
  | nil => intro init key; simp
  | cons e es ih =>
    intro init key
    simp only [List.foldl_cons, List.filter_cons]
    by_cases h : extKey e.2.extension = key
    · rw [ih, h]
      simp [lookupCount_bumpExt_self]
      omega
    · rw [ih, lookupCount_bumpExt_ne _ _ _ h]
      simp [h]

/-- Helper: membership in the `fileSizes` array means a present nonzero
size. -/
theorem mem_fileSizesOf (entries : List (String × Metadata)) (p : String) (s : Nat)
    (h : (p, s) ∈ fileSizesOf entries) :
    ∃ m, (p, m) ∈ entries ∧ m.size = some s ∧ s ≠ 0 := by
  unfold fileSizesOf at h
  rw [List.mem_filterMap] at h
  obtain ⟨⟨p', m⟩, hmem, heq⟩ := h
  cases hsz : m.size with
  | none => rw [hsz] at heq; simp at heq
  | some v =>
    rw [hsz] at heq
    by_cases hv : v = 0
    · simp [hv] at heq
    · simp [hv] at heq
      obtain ⟨hp, hs⟩ := heq
      subst hp
      subst hs
      exact ⟨m, hmem, hsz, hv⟩

/-- Helper: with duplicate-free keys, the key determines the record. -/
theorem nodup_keys_unique (entries : List (String × Metadata)) (p : String)
    (m m' : Metadata) (hk : (entries.map Prod.fst).Nodup)
    (h1 : (p, m) ∈ entries) (h2 : (p, m') ∈ entries) : m = m' := by
  induction entries with
  | nil => simp at h1
  | cons e es ih =>
    rw [List.map_cons, List.nodup_cons] at hk
    rw [List.mem_cons] at h1 h2
    rcases h1 with h1 | h1 <;> rcases h2 with h2 | h2
    · rw [← h2] at h1
      exact ((Prod.mk.injEq _ _ _ _).mp h1).2
    · exfalso
      subst h1
      apply hk.1
      rw [List.mem_map]
      exact ⟨(p, m'), h2, rfl⟩
    · exfalso
      subst h2
      apply hk.1
      rw [List.mem_map]
      exact ⟨(p, m), h1, rfl⟩
    · exact ih hk.2 h1 h2

/-- Helper: setting another key leaves a lookup unchanged. -/
theorem lookupKV_setKV_ne {α : Type} (l : List (String × α)) (key k : String)
    (v : α) (h : key ≠ k) : lookupKV (setKV l key v) k = lookupKV l k := by
  induction l with
  | nil => simp [setKV, lookupKV, h]
  | cons hd tl ih =>
    obtain ⟨k₁, v₁⟩ := hd
    by_cases h1 : k₁ = key
    · subst h1
      simp [setKV, lookupKV, h]
    · simp [setKV, lookupKV, h1, ih]

/-- Helper: a record's `path` key always holds the file path, whichever
branch of `extractFileMetadata` produced it. -/
theorem extractFileMetadata_path (fs : String → Except String String)
    (scan : String → String → Fragment) (f : String) :
    (extractFileMetadata fs scan f).path = f := by
  unfold extractFileMetadata
  cases hfs : fs f
  · rfl
  · rfl

/-- Helper: after the extraction loop, every processed file (and every
already-present record keyed by its own path) can be looked up by its
path. -/
theorem lookupKV_extract_foldl (fs : String → Except String String)
    (scan : String → String → Fragment) (files : List String) :
    ∀ (acc : List (String × Metadata)) (g : String),
      (g ∈ files ∨ ∃ m, lookupKV acc g = some m ∧ m.path = g) →
      ∃ m, lookupKV (files.foldl (fun acc f =>
          setKV acc (extractFileMetadata fs scan f).path
            (extractFileMetadata fs scan f)) acc) g = some m ∧ m.path = g := by
  induction files with
  | nil =>
    intro acc g h
    rcases h with h | h
    · simp at h
    · exact h
  | cons f fl ih =>
    intro acc g h
    rw [List.foldl_cons]
    by_cases hg : g = f
    · subst hg
      refine ih _ g (Or.inr ⟨extractFileMetadata fs scan g, ?_, extractFileMetadata_path fs scan g⟩)
      rw [extractFileMetadata_path fs scan g]
      exact lookupKV_setKV_self acc g _
    · rcases h with h | h
      · rw [List.mem_cons] at h
        rcases h with h | h
        · exact absurd h hg
        · exact ih _ g (Or.inl h)
      · refine ih _ g (Or.inr ?_)
        obtain ⟨m, hm, hp⟩ := h
        refine ⟨m, ?_, hp⟩
        rw [extractFileMetadata_path fs scan f,
          lookupKV_setKV_ne acc f g _ (fun he => hg he.symm)]
        exact hm

/-- C3: when reading a file fails, its record carries only the path, the
extension and the error string (no structural keys); whether the build
succeeds is decided by the tree building alone, never by extraction
results; and a successful build's `files` object has a record, keyed by its
path, for every discovered file — so a single file's extraction error never
aborts the build. -/
theorem c3_extraction_errors_never_abort
    (fs : String → Except String String) (scan : String → String → Fragment)
    (root now : String) (files : List String) (f e : String)
    (hf : f ∈ files) (he : fs f = .error e) :
    extractFileMetadata fs scan f = errorRecord f e ∧
    isOkE (generateIndex fs scan root now files) = isOkE (buildFileTree files) ∧
    (∀ doc, generateIndex fs scan root now files = .ok doc →
      ∀ g ∈ files, ∃ m, lookupKV doc.files g = some m ∧ m.path = g) := by
  refine ⟨?_, ?_, ?_⟩
  · unfold extractFileMetadata
    rw [he]
  · unfold generateIndex
    cases htree : buildFileTree files with
    | error u => rfl
    | ok t => rfl
  · intro doc hdoc g hg
    unfold generateIndex at hdoc
    cases htree : buildFileTree files with
    | error u =>
      rw [htree] at hdoc
      exact Except.noConfusion hdoc
    | ok t =>
      rw [htree] at hdoc
      simp only [Except.bind] at hdoc
      injection hdoc with h
      rw [← h]
      exact lookupKV_extract_foldl fs scan files [] g (Or.inl hg)

/-- Closed instance of C3's theorem: a file whose read fails with `EACCES`
gets a path/extension/error-only record, and the build's success is that of
the tree building. -/
theorem c3_extraction_errors_never_abort_witness :
    extractFileMetadata
        (fun p => if p = "bad.js" then .error "EACCES" else .ok "")
        (fun _ _ => ({} : Fragment)) "bad.js" = errorRecord "bad.js" "EACCES" ∧
    isOkE (generateIndex
        (fun p => if p = "bad.js" then .error "EACCES" else .ok "")
        (fun _ _ => ({} : Fragment)) "" "" ["good.py", "bad.js"]) =
      isOkE (buildFileTree ["good.py", "bad.js"]) :=
  ⟨(c3_extraction_errors_never_abort
      (fun p => if p = "bad.js" then .error "EACCES" else .ok "")
      (fun _ _ => ({} : Fragment)) "" "" ["good.py", "bad.js"] "bad.js" "EACCES"
      (by decide) rfl).1,
   (c3_extraction_errors_never_abort
      (fun p => if p = "bad.js" then .error "EACCES" else .ok "")
      (fun _ _ => ({} : Fragment)) "" "" ["good.py", "bad.js"] "bad.js" "EACCES"
      (by decide) rfl).2.1⟩

/-- Helper: splitting a character list on a separator never yields the
empty list. -/
theorem splitOnCharAux_ne_nil (sep : Char) :
    ∀ (s : List Char) (cur : List Char), splitOnCharAux sep cur s ≠ [] := by
  intro s
  induction s with
  | nil => intro cur; simp [splitOnCharAux]
  | cons c cs ih =>
    intro cur
    by_cases h : c = sep
    · simp [splitOnCharAux, h]
    · simp only [splitOnCharAux, if_neg h]
      exact ih (c :: cur)

/-- Helper: a split relative path has at least one segment. -/
theorem splitPath_ne_nil (s : String) : splitPath s ≠ [] :=
  splitOnCharAux_ne_nil '/' s.data []

mutual
/-- Helper: a node has as many leaves as leaf paths. -/
theorem nodeLeaves_eq_paths : ∀ n : Node, nodeLeaves n = (nodePaths n).length
  | .file => rfl
  | .dir es => by
    rw [nodeLeaves, nodePaths]
    exact entriesLeaves_eq_paths es
/-- Helper: an object level has as many leaves as leaf paths. -/
theorem entriesLeaves_eq_paths : ∀ es : Entries, entriesLeaves es = (entriesPaths es).length
  | [] => rfl
  | (k, n) :: rest => by
    rw [entriesLeaves, entriesPaths]
    rw [List.length_append, List.length_map]
    rw [nodeLeaves_eq_paths n, entriesLeaves_eq_paths rest]
end

/-- Helper: leaf paths distribute over appended levels. -/
theorem entriesPaths_append (a b : Entries) :
    entriesPaths (a ++ b) = entriesPaths a ++ entriesPaths b := by
  induction a with
  | nil => simp [entriesPaths]
  | cons hd tl ih =>
    obtain ⟨k, n⟩ := hd
    rw [List.cons_append, entriesPaths, entriesPaths, ih, List.append_assoc]

/-- Helper: a successful lookup is a membership. -/
theorem lookupKV_mem {α : Type} (l : List (String × α)) (k : String) (v : α)
    (h : lookupKV l k = some v) : (k, v) ∈ l := by
  induction l with
  | nil => simp [lookupKV] at h
  | cons hd tl ih =>
    obtain ⟨k₁, v₁⟩ := hd
    rw [lookupKV] at h
    by_cases h1 : k₁ = k
    · rw [if_pos h1] at h
      injection h with h
      rw [List.mem_cons, h1, h]
      exact Or.inl rfl
    · rw [if_neg h1] at h
      exact List.mem_cons_of_mem _ (ih h)

/-- Helper: a `none` lookup means the key is absent. -/
theorem lookupKV_none_not_mem {α : Type} (l : List (String × α)) (k : String)
    (h : lookupKV l k = none) : k ∉ l.map Prod.fst := by
  induction l with
  | nil => simp
  | cons hd tl ih =>
    obtain ⟨k₁, v₁⟩ := hd
    rw [lookupKV] at h
    by_cases h1 : k₁ = k
    · rw [if_pos h1] at h
      exact Option.noConfusion h
    · rw [if_neg h1] at h
      simp only [List.map_cons, List.mem_cons]
      rintro (h2 | h2)
      · exact h1 h2.symm
      · exact ih h h2

/-- Helper: setting an absent key appends the binding. -/
theorem setKV_append_of_none {α : Type} (l : List (String × α)) (k : String)
    (v : α) (h : lookupKV l k = none) : setKV l k v = l ++ [(k, v)] := by
  induction l with
  | nil => rfl
  | cons hd tl ih =>
    obtain ⟨k₁, v₁⟩ := hd
    rw [lookupKV] at h
    by_cases h1 : k₁ = k
    · rw [if_pos h1] at h
      exact Option.noConfusion h
    · rw [if_neg h1] at h
      rw [setKV, if_neg h1, ih h, List.cons_append]

/-- Helper: a leaf path of an entry's node is a leaf path of the level. -/
theorem mem_entriesPaths (es : Entries) (k : String) (n : Node)
    (q : List String) (hmem : (k, n) ∈ es) (hq : q ∈ nodePaths n) :
    (k :: q) ∈ entriesPaths es := by
  induction es with
  | nil => simp at hmem
  | cons hd tl ih =>
    obtain ⟨k₁, n₁⟩ := hd
    rw [List.mem_cons] at hmem
    rw [entriesPaths, List.mem_append]
    rcases hmem with hmem | hmem
    · left
      obtain ⟨hk, hn⟩ := (Prod.mk.injEq _ _ _ _).mp hmem
      subst hk
      subst hn
      exact List.mem_map_of_mem _ hq
    · right
      exact ih hmem

/-- Helper: every node stored in a well-formed level is well-formed. -/
theorem entriesWF_nodeWF_mem (es : Entries) (k : String) (n : Node)
    (hwf : EntriesWF es) (hmem : (k, n) ∈ es) : NodeWF n := by
  induction es with
  | nil => simp at hmem
  | cons hd tl ih =>
    cases hwf with
    | cons k₁ n₁ rest hn hrest hk =>
      rw [List.mem_cons] at hmem
      rcases hmem with hmem | hmem
      · obtain ⟨_, hn'⟩ := (Prod.mk.injEq _ _ _ _).mp hmem
        rw [hn']
        exact hn
      · exact ih hrest hmem

mutual
/-- Helper: a well-formed node has at least one leaf path. -/
theorem nodePaths_ne_nil : ∀ {n : Node}, NodeWF n → nodePaths n ≠ []
  | _, .file => by simp [nodePaths]
  | _, .dir es hwf hne => by
    rw [nodePaths]
    exact entriesPaths_ne_nil hwf hne
/-- Helper: a nonempty well-formed level has at least one leaf path. -/
theorem entriesPaths_ne_nil : ∀ {es : Entries}, EntriesWF es → es ≠ [] →
    entriesPaths es ≠ []
  | _, .nil, hne => absurd rfl hne
  | _, .cons k n rest hn _ _, _ => by
    rw [entriesPaths]
    intro habs
    rw [List.append_eq_nil] at habs
    have := nodePaths_ne_nil hn
    rw [List.map_eq_nil_iff] at habs
    exact this habs.1
end

/-- Helper: appending a fresh binding keeps a level well-formed. -/
theorem entriesWF_append (es : Entries) (k : String) (n : Node)
    (hwf : EntriesWF es) (hk : k ∉ es.map Prod.fst) (hn : NodeWF n) :
    EntriesWF (es ++ [(k, n)]) := by
  induction es with
  | nil =>
    exact EntriesWF.cons k n [] hn EntriesWF.nil (by simp)
  | cons hd tl ih =>
    cases hwf with
    | cons k₁ n₁ rest hn₁ hrest hk₁ =>
      rw [List.map_cons, List.mem_cons] at hk
      push_neg at hk
      refine EntriesWF.cons k₁ n₁ (tl ++ [(k, n)]) hn₁ (ih hrest hk.2) ?_
      rw [List.map_append, List.mem_append]
      rintro (h | h)
      · exact hk₁ h
      · simp at h
        exact hk.1 h.symm

/-- Helper: the keys after `setKV` are the old keys, extended by the new key
when it was absent. -/
theorem map_fst_setKV {α : Type} (l : List (String × α)) (k : String) (v : α) :
    (setKV l k v).map Prod.fst =
      if k ∈ l.map Prod.fst then l.map Prod.fst else l.map Prod.fst ++ [k] := by
  induction l with
  | nil => simp [setKV]
  | cons hd tl ih =>
    obtain ⟨k₁, v₁⟩ := hd
    by_cases h1 : k₁ = k
    · subst h1
      simp [setKV]
    · rw [setKV, if_neg h1, List.map_cons, List.map_cons, ih]
      by_cases h2 : k ∈ tl.map Prod.fst
      · rw [if_pos h2, if_pos (by simp [h2])]
      · rw [if_neg h2]
        have hcond : k ∉ k₁ :: tl.map Prod.fst := by
          rw [List.mem_cons]
          rintro (h | h)
          · exact h1 h.symm
          · exact h2 h
        rw [if_neg hcond, List.cons_append]

/-- Helper: replacing or adding a well-formed node keeps a level
well-formed. -/
theorem entriesWF_setKV (es : Entries) (k : String) (n : Node)
    (hwf : EntriesWF es) (hn : NodeWF n) : EntriesWF (setKV es k n) := by
  induction es with
  | nil => exact EntriesWF.cons k n [] hn EntriesWF.nil (by simp)
  | cons hd tl ih =>
    cases hwf with
    | cons k₁ n₁ rest hn₁ hrest hk₁ =>
      by_cases h1 : k₁ = k
      · subst h1
        rw [setKV, if_pos rfl]
        exact EntriesWF.cons k₁ n tl hn hrest hk₁
      · rw [setKV, if_neg h1]
        refine EntriesWF.cons k₁ n₁ (setKV tl k n) hn₁ (ih hrest) ?_
        rw [map_fst_setKV]
        by_cases h2 : k ∈ tl.map Prod.fst
        · rw [if_pos h2]
          exact hk₁
        · rw [if_neg h2, List.mem_append]
          rintro (h | h)
          · exact hk₁ h
          · simp at h
            exact h1 h

/-- Helper: replacing the node bound to `k` replaces its contribution to the
leaf paths (stated as a permutation with the old and new contributions moved
across the sides). -/
theorem entriesPaths_setKV_perm (es : Entries) (k : String) (n n' : Node)
    (h : lookupKV es k = some n) :
    (entriesPaths (setKV es k n') ++ (nodePaths n).map (k :: ·)).Perm
      (entriesPaths es ++ (nodePaths n').map (k :: ·)) := by
  induction es with
  | nil => simp [lookupKV] at h
  | cons hd tl ih =>
    obtain ⟨k₁, m⟩ := hd
    rw [lookupKV] at h
    by_cases h1 : k₁ = k
    · rw [if_pos h1] at h
      injection h with h
      subst h1
      subst h
      rw [setKV, if_pos rfl, entriesPaths, entriesPaths, List.append_assoc,
        List.append_assoc]
      refine (List.perm_append_comm).trans ?_
      rw [List.append_assoc]
      refine (List.perm_append_comm).trans ?_
      rw [List.append_assoc]
      exact List.Perm.append_left _ List.perm_append_comm
    · rw [if_neg h1] at h
      rw [setKV, if_neg h1, entriesPaths, entriesPaths, List.append_assoc,
        List.append_assoc]
      exact List.Perm.append_left _ (ih h)

/-- Helper: inserting a path that neither extends nor is extended by any
existing leaf path succeeds, preserves well-formedness, and adds exactly
that path to the leaf paths. -/
theorem insertParts_fresh :
    ∀ (parts : List String) (es : Entries), parts ≠ [] → EntriesWF es →
      (∀ q ∈ entriesPaths es, ¬ parts <+: q ∧ ¬ q <+: parts) →
      ∃ es', insertParts es parts = .ok es' ∧ EntriesWF es' ∧
        (entriesPaths es').Perm (parts :: entriesPaths es) := by
  intro parts
  induction parts with
  | nil => intro es hne _ _; exact absurd rfl hne
  | cons k rest ih =>
    intro es _ hwf hfresh
    cases rest with
    | nil =>
      have hnone : lookupKV es k = none := by
        cases hlk : lookupKV es k with
        | none => rfl
        | some n =>
          exfalso
          have hmem := lookupKV_mem es k n hlk
          have hnwf := entriesWF_nodeWF_mem es k n hwf hmem
          cases hnwf with
          | file =>
            have hin : [k] ∈ entriesPaths es :=
              mem_entriesPaths es k _ [] hmem (by simp [nodePaths])
            exact (hfresh [k] hin).1 (List.prefix_refl [k])
          | dir es₂ hwf₂ hne₂ =>
            obtain ⟨q₀, hq₀⟩ :=
              List.exists_mem_of_ne_nil _ (entriesPaths_ne_nil hwf₂ hne₂)
            have hin : (k :: q₀) ∈ entriesPaths es :=
              mem_entriesPaths es k _ q₀ hmem (by rw [nodePaths]; exact hq₀)
            refine (hfresh (k :: q₀) hin).1 ?_
            rw [List.cons_prefix_cons]
            exact ⟨rfl, List.nil_prefix⟩
      refine ⟨setKV es k .file, rfl,
        entriesWF_setKV es k .file hwf NodeWF.file, ?_⟩
      rw [setKV_append_of_none es k .file hnone, entriesPaths_append]
      exact List.perm_append_singleton [k] (entriesPaths es)
    | cons r rs =>
      cases hlk : lookupKV es k with
      | none =>
        obtain ⟨sub', hok, hwf', hperm'⟩ :=
          ih [] (by simp) EntriesWF.nil (by simp [entriesPaths])
        have hpaths : entriesPaths sub' = [r :: rs] := by
          rw [entriesPaths] at hperm'
          exact List.perm_singleton.mp hperm'
        have hsubne : sub' ≠ [] := by
          intro habs
          rw [habs, entriesPaths] at hpaths
          exact List.noConfusion hpaths
        refine ⟨setKV es k (.dir sub'), ?_, ?_, ?_⟩
        · simp only [insertParts, hlk]
          rw [hok]
          rfl
        · exact entriesWF_setKV es k _ hwf (NodeWF.dir sub' hwf' hsubne)
        · rw [setKV_append_of_none es k _ hlk, entriesPaths_append]
          rw [show entriesPaths [(k, Node.dir sub')] =
            (entriesPaths sub').map (k :: ·) ++ [] from rfl]
          rw [hpaths]
          simp only [List.map_cons, List.map_nil, List.append_nil]
          exact List.perm_append_singleton _ _
      | some n =>
        have hmem := lookupKV_mem es k n hlk
        cases hn : n with
        | file =>
          exfalso
          rw [hn] at hmem
          have hin : [k] ∈ entriesPaths es :=
            mem_entriesPaths es k _ [] hmem (by simp [nodePaths])
          refine (hfresh [k] hin).2 ?_
          rw [List.cons_prefix_cons]
          exact ⟨rfl, List.nil_prefix⟩
        | dir sub =>
          rw [hn] at hmem hlk
          have hnwf := entriesWF_nodeWF_mem es k _ hwf hmem
          cases hnwf with
          | dir _ hwfsub hsubne =>
            have hfr : ∀ q ∈ entriesPaths sub,
                ¬ (r :: rs) <+: q ∧ ¬ q <+: (r :: rs) := by
              intro q hq
              have hkq : (k :: q) ∈ entriesPaths es :=
                mem_entriesPaths es k _ q hmem (by rw [nodePaths]; exact hq)
              have hfq := hfresh (k :: q) hkq
              constructor
              · intro hpre
                refine hfq.1 ?_
                rw [List.cons_prefix_cons]
                exact ⟨rfl, hpre⟩
              · intro hpre
                refine hfq.2 ?_
                rw [List.cons_prefix_cons]
                exact ⟨rfl, hpre⟩
            obtain ⟨sub', hok, hwf', hperm'⟩ := ih sub (by simp) hwfsub hfr
            have hsubne' : sub' ≠ [] := by
              intro habs
              rw [habs] at hperm'
              have := hperm'.symm.eq_nil
              exact List.noConfusion this
            refine ⟨setKV es k (.dir sub'), ?_, ?_, ?_⟩
            · simp only [insertParts, hlk]
              rw [hok]
              rfl
            · exact entriesWF_setKV es k _ hwf (NodeWF.dir sub' hwf' hsubne')
            · have hrepl := entriesPaths_setKV_perm es k (.dir sub) (.dir sub') hlk
              rw [nodePaths, nodePaths] at hrepl
              have hmap : ((entriesPaths sub').map (k :: ·)).Perm
                  ((k :: r :: rs) :: (entriesPaths sub).map (k :: ·)) := by
                have := hperm'.map (k :: ·)
                rw [List.map_cons] at this
                exact this
              have hstep : (entriesPaths (setKV es k (.dir sub')) ++
                  (entriesPaths sub).map (k :: ·)).Perm
                  (((k :: r :: rs) :: entriesPaths es) ++
                    (entriesPaths sub).map (k :: ·)) := by
                refine hrepl.trans ?_
                refine ((List.Perm.append_left (entriesPaths es) hmap).trans ?_)
                rw [List.cons_append]
                exact List.perm_middle
              exact (List.perm_append_right_iff _).mp hstep

/-- Helper: folding prefix-free fresh paths into a well-formed level
accumulates exactly those paths. -/
theorem buildFileTree_fold (files : List String) :
    ∀ (acc : Entries), EntriesWF acc →
      (files.map splitPath).Pairwise (fun p q => ¬ p <+: q ∧ ¬ q <+: p) →
      (∀ f ∈ files, ∀ q ∈ entriesPaths acc,
        ¬ splitPath f <+: q ∧ ¬ q <+: splitPath f) →
      ∃ t, files.foldlM (fun es f => insertParts es (splitPath f)) acc = .ok t ∧
        EntriesWF t ∧
        (entriesPaths t).Perm (files.map splitPath ++ entriesPaths acc) := by
  induction files with
  | nil =>
    intro acc hwf _ _
    exact ⟨acc, rfl, hwf, by simp⟩
  | cons f fl ih =>
    intro acc hwf hpw hcross
    rw [List.map_cons, List.pairwise_cons] at hpw
    obtain ⟨t₁, hok₁, hwf₁, hperm₁⟩ := insertParts_fresh (splitPath f) acc
      (splitPath_ne_nil f) hwf
      (fun q hq => hcross f (List.mem_cons_self f fl) q hq)
    have hcross' : ∀ g ∈ fl, ∀ q ∈ entriesPaths t₁,
        ¬ splitPath g <+: q ∧ ¬ q <+: splitPath g := by
      intro g hg q hq
      have hq' : q ∈ splitPath f :: entriesPaths acc := hperm₁.mem_iff.mp hq
      rw [List.mem_cons] at hq'
      rcases hq' with rfl | hq'
      · have hrel := hpw.1 (splitPath g) (List.mem_map_of_mem splitPath hg)
        exact ⟨fun hp => hrel.2 hp, fun hp => hrel.1 hp⟩
      · exact hcross g (List.mem_cons_of_mem f hg) q hq'
    obtain ⟨t, hok, hwft, hpermt⟩ := ih t₁ hwf₁ hpw.2 hcross'
    refine ⟨t, ?_, hwft, ?_⟩
    · rw [List.foldlM_cons, hok₁]
      exact hok
    · refine hpermt.trans ?_
      refine (List.Perm.append_left _ hperm₁).trans ?_
      rw [List.map_cons]
      exact List.perm_middle

/-- C8 counterexample: for the discovered list `["a", "a/b"]` (a path
extending another), `totalFiles` is 2 but the built tree has a single file
leaf. -/
theorem c8_counterexample :
    (generateIndex (fun _ => .ok "") (fun _ _ => ({} : Fragment)) "" ""
      ["a", "a/b"]).map
      (fun doc => (doc.totalFiles, entriesLeaves doc.fileTree)) = .ok (2, 1) ∧
    (2 : Nat) ≠ 1 :=
  ⟨rfl, by decide⟩

/-- C8 amended: for every discovered list whose split paths are pairwise
non-prefix-comparable (so distinct, none a segment-prefix of another — as a
real directory walk produces), the build succeeds and `totalFiles` equals
the number of file-marker leaves of `fileTree` (both being the number of
files). -/
theorem c8_total_files_eq_tree_leaves (fs : String → Except String String)
    (scan : String → String → Fragment) (root now : String)
    (files : List String)
    (hp : (files.map splitPath).Pairwise (fun p q => ¬ p <+: q ∧ ¬ q <+: p)) :
    ∃ doc, generateIndex fs scan root now files = .ok doc ∧
      doc.totalFiles = entriesLeaves doc.fileTree ∧
      doc.totalFiles = files.length := by
  obtain ⟨t, hok, hwft, hperm⟩ :=
    buildFileTree_fold files [] EntriesWF.nil hp (by simp [entriesPaths])
  have hok' : buildFileTree files = .ok t := hok
  have hlen : entriesLeaves t = files.length := by
    rw [entriesLeaves_eq_paths t, hperm.length_eq]
    simp [entriesPaths]
  refine ⟨⟨now, root, files.length, t,
    files.foldl (fun acc f =>
      setKV acc (extractFileMetadata fs scan f).path
        (extractFileMetadata fs scan f)) [],
    generateSummary (files.foldl (fun acc f =>
      setKV acc (extractFileMetadata fs scan f).path
        (extractFileMetadata fs scan f)) [])⟩, ?_, ?_, rfl⟩
  · unfold generateIndex
    rw [hok']
    rfl
  · exact hlen.symm

/-- Closed instance of C8's amended theorem at a two-file project. -/
theorem c8_total_files_eq_tree_leaves_witness :
    (generateIndex (fun _ => .ok "") (fun _ _ => ({} : Fragment)) "" ""
      ["a/b.py", "c.py"]).map
      (fun doc => (doc.totalFiles, entriesLeaves doc.fileTree)) = .ok (2, 2) := by
  obtain ⟨doc, hok, h1, h2⟩ := c8_total_files_eq_tree_leaves
    (fun _ => .ok "") (fun _ _ => ({} : Fragment)) "" "" ["a/b.py", "c.py"]
    (by decide)
  simp only [hok, Except.map]
  rw [← h1, h2]
  rfl

/-- C9: a file whose record carries size 0 (an empty file) or no size at all
(extraction failure) never appears in `largestFiles`, yet it is still
counted in `filesByExtension`, and `totalFiles` counts every discovered
file regardless of sizes. -/
theorem c9_zero_size_excluded_but_counted (entries : List (String × Metadata))
    (p : String) (m : Metadata) (hmem : (p, m) ∈ entries)
    (hsz : m.size = some 0 ∨ m.size = none)
    (hkeys : (entries.map Prod.fst).Nodup) :
    p ∉ ((generateSummary entries).largestFiles.map Prod.fst) ∧
    1 ≤ lookupCount ((generateSummary entries).filesByExtension) (extKey m.extension) ∧
    (∀ (fs : String → Except String String) (scan : String → String → Fragment)
      (root now : String) (files : List String) (doc : IndexDocument),
      generateIndex fs scan root now files = .ok doc →
      doc.totalFiles = files.length) := by
  refine ⟨?_, ?_, ?_⟩
  · intro hp
    rw [List.mem_map] at hp
    obtain ⟨⟨p', s⟩, hin, hfst⟩ := hp
    simp only at hfst
    obtain rfl := hfst.symm
    have hin' : (p, s) ∈ sortDescBySize (fileSizesOf entries) :=
      List.take_subset 10 _ hin
    have hin'' : (p, s) ∈ fileSizesOf entries :=
      (sortDescBySize_perm (fileSizesOf entries)).mem_iff.mp hin'
    obtain ⟨m', hm', hsize, hnz⟩ := mem_fileSizesOf entries p s hin''
    have := nodup_keys_unique entries p m m' hkeys hmem hm'
    rw [← this] at hsize
    rcases hsz with h0 | h0 <;> rw [h0] at hsize
    · exact hnz (Option.some.injEq _ _ |>.mp hsize.symm)
    · exact Option.noConfusion hsize
  · have := lookupCount_extFold entries [] (extKey m.extension)
    simp only [generateSummary]
    rw [this]
    have hne : (entries.filter
        (fun e => extKey e.2.extension == extKey m.extension)) ≠ [] := by
      intro hemp
      have : (p, m) ∈ entries.filter
          (fun e => extKey e.2.extension == extKey m.extension) :=
        List.mem_filter.mpr ⟨hmem, by simp⟩
      rw [hemp] at this
      simp at this
    have : 0 < (entries.filter
        (fun e => extKey e.2.extension == extKey m.extension)).length :=
      List.length_pos.mpr hne
    simp [lookupCount]
    omega
  · intro fs scan root now files doc hdoc
    unfold generateIndex at hdoc
    cases htree : buildFileTree files with
    | error e =>
      rw [htree] at hdoc
      exact Except.noConfusion hdoc
    | ok t =>
      rw [htree] at hdoc
      simp only [Except.bind] at hdoc
      injection hdoc with h
      rw [← h]

/-- Closed instance of C9's theorem: an empty `.py` file next to a nonempty
one is absent from `largestFiles` but counted in its extension bucket. -/
theorem c9_zero_size_excluded_but_counted_witness :
    "e.py" ∉ ((generateSummary [("e.py", baseMetadata "e.py" ".py" ""),
      ("f.py", baseMetadata "f.py" ".py" "xyz")]).largestFiles.map Prod.fst) ∧
    1 ≤ lookupCount ((generateSummary [("e.py", baseMetadata "e.py" ".py" ""),
      ("f.py", baseMetadata "f.py" ".py" "xyz")]).filesByExtension)
      (extKey (baseMetadata "e.py" ".py" "").extension) :=
  ⟨(c9_zero_size_excluded_but_counted
      [("e.py", baseMetadata "e.py" ".py" ""), ("f.py", baseMetadata "f.py" ".py" "xyz")]
      "e.py" (baseMetadata "e.py" ".py" "") (by decide) (Or.inl rfl) (by decide)).1,
   (c9_zero_size_excluded_but_counted
      [("e.py", baseMetadata "e.py" ".py" ""), ("f.py", baseMetadata "f.py" ".py" "xyz")]
      "e.py" (baseMetadata "e.py" ".py" "") (by decide) (Or.inl rfl) (by decide)).2.1⟩
